import Mathlib

/-!
Shallow embedding of the `path-value` Rust crate: a dynamically typed value
tree (`Value`), a path mini-language (`PathNode`), the path-based `get`/`set`
engine, the recursive `merge` algorithm and the primitive ends of the
serde bridge (`src/value/mod.rs`, `src/path/mod.rs`, `src/value/ser.rs`,
`src/value/de.rs`, `src/error.rs`).

Modelling conventions:
* `BigInt` is modelled as `Int`; `isize`/`i64` values carried by paths are
  modelled as `Int` (all claim inputs are tiny).
* `f64` payloads are modelled as a raw 64-bit pattern (`F64`).  The crate
  never performs float arithmetic in the operations under study: floats are
  matched on, copied, or embedded into errors, so an opaque bit pattern is a
  faithful image.  The one float comparison in the sources
  (`TryFrom<Value> for bool`: `value != 0.0`) is exactly "bits are neither
  +0.0 nor -0.0" (every other pattern, NaN included, compares `!= 0.0`).
* `HashMap<String, Value>` is modelled as an association list with unique
  keys; `HashMap::get`/`insert`/`entry` become first-occurrence operations.
* Rust panics (usize subtraction overflow in `Value::map_index`,
  `Vec::insert` with index > len in `Value::get_array_slot`) are modelled as
  a `none` outcome of an outer `Option`.
-/

/-- Raw bit pattern of a Rust `f64` (no arithmetic is ever performed). -/
structure F64 where
  bits : Nat
deriving DecidableEq, Repr

/-- The `Value` tagged union from `src/value/mod.rs`. -/
inductive Value where
  | Nil : Value
  | Integer : Int → Value
  | Float : F64 → Value
  | Boolean : Bool → Value
  | String : String → Value
  | Map : List (String × Value) → Value
  | Array : List Value → Value
deriving Repr

/-- `Unexpected` from `src/error.rs`. -/
inductive Unexpected where
  | Bool : Bool → Unexpected
  | Integer : Int → Unexpected
  | Float : F64 → Unexpected
  | Str : String → Unexpected
  | Unit : Unexpected
  | Array : Unexpected
  | Map : Unexpected
deriving DecidableEq, Repr

/-- The error kinds of `ErrorImpl` from `src/error.rs` that the modelled
operations can produce (Io/FormatParse are reserved for external
collaborators and never constructed by the core). -/
inductive Error where
  | PathParse : String → Error
  | Type : Unexpected → String → Error
  | Range : Int → Error
  | Serde : String → Error
deriving DecidableEq, Repr

/-- `PathNode` from `src/path/mod.rs`. -/
inductive PathNode where
  | Identifier : String → PathNode
  | Index : Int → PathNode
deriving DecidableEq, Repr

/-- `HashMap::get` on the association-list model (first occurrence). -/
def assocFind : List (String × Value) → String → Option Value
  | [], _ => none
  | (k, v) :: rest, key => if k = key then some v else assocFind rest key

/-- In-place update of the entry at `key` (models writing through
`HashMap::get_mut`); leaves the list unchanged when the key is absent. -/
def assocUpdate : List (String × Value) → String → Value → List (String × Value)
  | [], _, _ => []
  | (k, v) :: rest, key, nv =>
    if k = key then (k, nv) :: rest else (k, v) :: assocUpdate rest key nv

/-- `Value::map_index` from `src/value/mod.rs`: non-negative indices pass
through, negative indices are `len - abs(index)` in `usize` arithmetic.
`none` models the usize-subtraction overflow panic when `abs(index) > len`
(debug builds panic there; the subtraction is a program error either way). -/
def Value.map_index (index : Int) (len : Nat) : Option Nat :=
  if 0 ≤ index then some index.toNat
  else if index.natAbs ≤ len then some (len - index.natAbs) else none

/-- One step of the walk inside `Value::get`'s `scan` closure: `some (some v)`
means the segment resolved to `v`, `some none` means it failed to resolve
(map miss, wrong variant, out-of-bounds index), `none` models a panic. -/
def stepNode (v : Value) : PathNode → Option (Option Value)
  | .Identifier id =>
    match v with
    | .Map m => some (assocFind m id)
    | _ => some none
  | .Index i =>
    match v with
    | .Array arr =>
      match Value.map_index i arr.length with
      | none => none
      | some idx =>
        if idx < arr.length then some (some (arr.getD idx .Nil)) else some none
    | _ => some none

/-- The `path.iter().scan(self, …).last()` pipeline inside `Value::get`:
`scan` stops at the first segment that fails to resolve and `last()` then
returns the most recently resolved node (`acc`), or `None` when no segment
resolved at all.  Outer `none` models a panic inside `map_index`. -/
def scanLast (v : Value) (p : List PathNode) (acc : Option Value) :
    Option (Option Value) :=
  match p with
  | [] => some acc
  | n :: rest =>
    match stepNode v n with
    | none => none
    | some none => some acc
    | some (some c) => scanLast c rest (some c)

/-- The path-resolution part of `Value::get` (before type coercion). -/
def resolvePath (v : Value) (p : List PathNode) : Option (Option Value) :=
  scanLast v p none

/-- `Value::get`, generic over the `TryFrom<Value>` coercion of the requested
target type: resolves the path, then coerces the node found (if any). -/
def Value.get {α : Type} (coe : Value → Except Error α) (v : Value)
    (p : List PathNode) : Option (Except Error (Option α)) :=
  match resolvePath v p with
  | none => none
  | some none => some (.ok none)
  | some (some r) =>
    match coe r with
    | .error e => some (.error e)
    | .ok a => some (.ok (some a))

/-- Strict resolution: the whole path resolves segment by segment.  This is
the precondition "the path is resolvable" used by the set/get claims; it is
not itself a function of the crate (`get`'s own walk keeps the last
partially resolved node instead). -/
def strictResolve (v : Value) : List PathNode → Option Value
  | [] => some v
  | n :: rest =>
    match stepNode v n with
    | some (some c) => strictResolve c rest
    | _ => none

/-- `Value::get_array_slot` from `src/value/mod.rs`: map the index, reuse the
slot when in bounds, otherwise `Vec::insert(index, default)`.  `Vec::insert`
only accepts `index ≤ len`, so an index beyond the length panics (`none`);
`index == len` appends a `Nil` slot. -/
def Value.get_array_slot (arr : List Value) (i : Int) :
    Option (Nat × List Value) :=
  match Value.map_index i arr.length with
  | none => none
  | some idx =>
    if idx < arr.length then some (idx, arr)
    else if idx = arr.length then some (idx, arr ++ [Value.Nil])
    else none

/-- `Value::set` from `src/value/mod.rs` on an already-parsed path: walk the
path, auto-vivifying (a non-Map parent is replaced by an empty map before an
identifier step, a non-Array parent by the one-element array `[Nil]` before
an index step), finally overwrite the located slot and return its previous
content.  `none` models the two panics reachable through
`map_index`/`get_array_slot`. -/
def setPath : Value → List PathNode → Value → Option (Value × Value)
  | t, [], v => some (t, v)
  | t, .Identifier id :: rest, v =>
    let m := match t with
      | .Map m => m
      | _ => ([] : List (String × Value))
    match assocFind m id with
    | some child =>
      match setPath child rest v with
      | none => none
      | some (old, child') => some (old, .Map (assocUpdate m id child'))
    | none =>
      match setPath .Nil rest v with
      | none => none
      | some (old, child') => some (old, .Map (m ++ [(id, child')]))
  | t, .Index i :: rest, v =>
    let arr := match t with
      | .Array a => a
      | _ => [Value.Nil]
    match Value.get_array_slot arr i with
    | none => none
    | some (idx, arr') =>
      match setPath (arr'.getD idx .Nil) rest v with
      | none => none
      | some (old, child') => some (old, .Array (arr'.set idx child'))

/-- The walk of `setPath` stripped of the written value: `true` exactly when
every index segment lands inside or immediately after the array it indexes
at that moment of the (vivifying) walk, i.e. when `set` does not panic. -/
def setSafe : Value → List PathNode → Bool
  | _, [] => true
  | t, .Identifier id :: rest =>
    let m := match t with
      | .Map m => m
      | _ => ([] : List (String × Value))
    match assocFind m id with
    | some child => setSafe child rest
    | none => setSafe .Nil rest
  | t, .Index i :: rest =>
    let arr := match t with
      | .Array a => a
      | _ => [Value.Nil]
    match Value.get_array_slot arr i with
    | none => false
    | some (idx, arr') => setSafe (arr'.getD idx .Nil) rest

/-- `TryFrom<Value> for bool` from `src/value/mod.rs`.  The float arm is
Rust's `value != 0.0`, i.e. the bit pattern is neither +0.0 nor -0.0. -/
def tryIntoBool : Value → Except Error Bool
  | .Boolean b => .ok b
  | .Integer i => .ok (decide (i ≠ 0))
  | .Float f => .ok (decide (f.bits ≠ 0 ∧ f.bits ≠ 2 ^ 63))
  | .String s =>
    match s.toLower with
    | "1" | "true" | "on" | "yes" => .ok true
    | "0" | "false" | "off" | "no" => .ok false
    | t => .error (.Type (.Str t) "a boolean")
  | .Nil => .error (.Type .Unit "a boolean")
  | .Map _ => .error (.Type .Map "a boolean")
  | .Array _ => .error (.Type .Array "a boolean")

mutual

/-- `Value::merge` from `src/value/mod.rs`.  The Rust function mutates the
target through `&mut self` and returns `Result<()>`; here it returns the
target's final state together with the error, so that the state left behind
by a failing call stays observable (the Map/Array arms stop at the first
failing sub-merge, keeping the sub-merges already performed). -/
def Value.merge : Value → Value → Value × Option Error
  | .Boolean _, .Boolean v_s => (.Boolean v_s, none)
  | .Boolean v_t, .Float value => (.Boolean v_t, some (.Type (.Float value) "a bool"))
  | .Boolean v_t, .String value => (.Boolean v_t, some (.Type (.Str value) "a bool"))
  | .Boolean v_t, .Integer value => (.Boolean v_t, some (.Type (.Integer value) "a bool"))
  | .Boolean v_t, .Nil => (.Boolean v_t, none)
  | .Boolean v_t, .Array _ => (.Boolean v_t, some (.Type .Array "a bool"))
  | .Boolean v_t, .Map _ => (.Boolean v_t, some (.Type .Map "a bool"))
  | .Integer _, .Integer v_s => (.Integer v_s, none)
  | .Integer v_t, .Float value => (.Integer v_t, some (.Type (.Float value) "a integer"))
  | .Integer v_t, .String value => (.Integer v_t, some (.Type (.Str value) "a integer"))
  | .Integer v_t, .Boolean value => (.Integer v_t, some (.Type (.Bool value) "a integer"))
  | .Integer v_t, .Nil => (.Integer v_t, none)
  | .Integer v_t, .Array _ => (.Integer v_t, some (.Type .Array "a integer"))
  | .Integer v_t, .Map _ => (.Integer v_t, some (.Type .Map "a integer"))
  | .Float _, .Float v_s => (.Float v_s, none)
  | .Float v_t, .Integer value => (.Float v_t, some (.Type (.Integer value) "a float"))
  | .Float v_t, .String value => (.Float v_t, some (.Type (.Str value) "a float"))
  | .Float v_t, .Boolean value => (.Float v_t, some (.Type (.Bool value) "a float"))
  | .Float v_t, .Nil => (.Float v_t, none)
  | .Float v_t, .Array _ => (.Float v_t, some (.Type .Array "a float"))
  | .Float v_t, .Map _ => (.Float v_t, some (.Type .Map "a float"))
  | .String _, .String v_s => (.String v_s, none)
  | .String v_t, .Integer value => (.String v_t, some (.Type (.Integer value) "a string"))
  | .String v_t, .Float value => (.String v_t, some (.Type (.Float value) "a string"))
  | .String v_t, .Boolean value => (.String v_t, some (.Type (.Bool value) "a string"))
  | .String v_t, .Nil => (.String v_t, none)
  | .String v_t, .Array _ => (.String v_t, some (.Type .Array "a string"))
  | .String v_t, .Map _ => (.String v_t, some (.Type .Map "a string"))
  | .Nil, .Nil => (.Nil, none)
  | .Nil, source => (source, none)
  | .Map v_t, .Map v_s =>
    let r := mergeMapList v_t v_s
    (.Map r.1, r.2)
  | .Map v_t, .Integer value => (.Map v_t, some (.Type (.Integer value) "a map"))
  | .Map v_t, .Float value => (.Map v_t, some (.Type (.Float value) "a map"))
  | .Map v_t, .Boolean value => (.Map v_t, some (.Type (.Bool value) "a map"))
  | .Map v_t, .String value => (.Map v_t, some (.Type (.Str value) "a map"))
  | .Map v_t, .Nil => (.Map v_t, none)
  | .Map v_t, .Array _ => (.Map v_t, some (.Type .Array "a map"))
  | .Array v_t, .Array v_s =>
    let r := mergeArrayList v_t 0 v_s
    (.Array r.1, r.2)
  | .Array v_t, .Integer value => (.Array v_t, some (.Type (.Integer value) "a array"))
  | .Array v_t, .Float value => (.Array v_t, some (.Type (.Float value) "a array"))
  | .Array v_t, .Boolean value => (.Array v_t, some (.Type (.Bool value) "a array"))
  | .Array v_t, .String value => (.Array v_t, some (.Type (.Str value) "a array"))
  | .Array v_t, .Nil => (.Array v_t, none)
  | .Array v_t, .Map _ => (.Array v_t, some (.Type .Map "a array"))

/-- The `for (k, v) in v_s` loop of the Map arm of `Value::merge`: each
source entry is merged into the existing target entry (`get_mut`) or
inserted; the loop stops at the first error, keeping the work done so far. -/
def mergeMapList :
    List (String × Value) → List (String × Value) →
      List (String × Value) × Option Error
  | v_t, [] => (v_t, none)
  | v_t, (k, v) :: rest =>
    match assocFind v_t k with
    | some j =>
      let r := Value.merge j v
      let v_t' := assocUpdate v_t k r.1
      match r.2 with
      | some e => (v_t', some e)
      | none => mergeMapList v_t' rest
    | none => mergeMapList (v_t ++ [(k, v)]) rest

/-- The `for (index, v) in v_s.into_iter().enumerate()` loop of the Array arm
of `Value::merge`: index-wise recursive merge, appending when the index is
beyond the target's current length, stopping at the first error. -/
def mergeArrayList :
    List Value → Nat → List Value → List Value × Option Error
  | v_t, _, [] => (v_t, none)
  | v_t, index, v :: rest =>
    if h : index < v_t.length then
      let r := Value.merge (v_t.get ⟨index, h⟩) v
      let v_t' := v_t.set index r.1
      match r.2 with
      | some e => (v_t', some e)
      | none => mergeArrayList v_t' (index + 1) rest
    else mergeArrayList (v_t ++ [v]) (index + 1) rest

end

/-- Modelled from the spec: the character class of a path identifier.  The
grammar file `path/path.pest` is not part of the sources; §4.2 describes a
segment identifier as an `[A-Za-z0-9_-]+`-style token. -/
def isIdentChar (c : Char) : Bool :=
  ('a' ≤ c && c ≤ 'z') || ('A' ≤ c && c ≤ 'Z') || ('0' ≤ c && c ≤ '9') ||
    c = '_' || c = '-'

/-- Decimal value of a digit string. -/
def digitsToNat (ds : List Char) : Nat :=
  ds.foldl (fun acc c => acc * 10 + (c.toNat - '0'.toNat)) 0

/-- Modelled from the spec: one bracket group of a segment, i.e. the text
between a `[` and the end of the group, which must be a signed decimal
integer immediately followed by `]`. -/
def parseIdxGroup (g : List Char) : Option Int :=
  if g.getLast? = some ']' then
    match g.dropLast with
    | '-' :: ds =>
      if ds ≠ [] ∧ ds.all (·.isDigit) then some (-(digitsToNat ds : Int))
      else none
    | ds =>
      if ds ≠ [] ∧ ds.all (·.isDigit) then some (digitsToNat ds : Int)
      else none
  else none

/-- Modelled from the spec: one `/`-separated segment — an identifier
optionally followed by bracketed signed indices — emitted, as in
`PathParser::parse_to_path`, as an `Identifier` node followed by one `Index`
node per bracket group. -/
def parseSegment (cs : List Char) : Option (List PathNode) :=
  match cs.splitOn '[' with
  | [] => none
  | identCs :: groups =>
    if identCs ≠ [] ∧ identCs.all isIdentChar then
      match groups.mapM parseIdxGroup with
      | some idxs =>
        some (.Identifier (String.mk identCs) :: idxs.map .Index)
      | none => none
    else none

/-- `PathParser::parse_to_path` from `src/path/mod.rs`, with the grammar
Modelled from the spec (§4.2): a path is anchored at `/`; the bare root `/`
is the empty path; the empty string and any deviation from the grammar are
parse errors carrying the input string. -/
def parse_to_path (s : String) : Except Error (List PathNode) :=
  match s.toList with
  | '/' :: rest =>
    if rest = [] then .ok []
    else
      match (rest.splitOn '/').mapM parseSegment with
      | some segs => .ok segs.flatten
      | none => .error (.PathParse s)
  | _ => .error (.PathParse s)

/-- The encoder state of `ValueSerializer` from `src/value/ser.rs`: the
stack of (full-path-string, optional running index) pairs and the output
tree. -/
structure ValueSerializer where
  keys : List (String × Option Nat)
  output : Value

/-- `ValueSerializer::last_key_index_pair` from `src/value/ser.rs`. -/
def last_key_index_pair (s : ValueSerializer) : Option (String × Option Nat) :=
  s.keys.getLast?

/-- The `set` call at the end of `ValueSerializer::serialize_primitive`:
parse the accumulated key as a path and write the value into the output
tree.  Outer `none` models a panic inside `Value::set`. -/
def serializeAt (s : ValueSerializer) (key : String) (v : Value) :
    Option (Except Error ValueSerializer) :=
  match parse_to_path key with
  | .error e => some (.error e)
  | .ok p =>
    match setPath s.output p v with
    | none => none
    | some (_, out') => some (.ok { keys := s.keys, output := out' })

/-- `ValueSerializer::serialize_primitive` from `src/value/ser.rs`: build
the key from the top of the key stack (`key[index]` inside a sequence),
fail with a Serde error when the stack is empty, otherwise `set` the value
at the parsed key.  `display` is the `Display` rendering of the value used
in the error message. -/
def serialize_primitive (s : ValueSerializer) (v : Value) (display : String) :
    Option (Except Error ValueSerializer) :=
  match last_key_index_pair s with
  | some (key, some index) =>
    serializeAt s (key ++ "[" ++ toString index ++ "]") v
  | some (key, none) => serializeAt s key v
  | none =>
    some (.error (.Serde ("key is not found for value " ++ display)))

/-- `to_value` from `src/value/mod.rs` applied to a primitive: serde
dispatches a primitive straight to `serialize_primitive` on the default
serializer state (empty key stack, `Nil` output). -/
def to_value_primitive (v : Value) (display : String) :
    Option (Except Error Value) :=
  match serialize_primitive ⟨[], .Nil⟩ v display with
  | none => none
  | some (.error e) => some (.error e)
  | some (.ok s) => some (.ok s.output)

/-- `EnumAccess::no_constructor_error` from `src/value/de.rs`. -/
def no_constructor_error (name supposed_variant : String) : Error :=
  .Serde ("enum " ++ name ++ " does not have variant constructor " ++
    supposed_variant)

/-- `EnumAccess::structural_error` from `src/value/de.rs`. -/
def structural_error (name : String) : Error :=
  .Serde ("value of enum " ++ name ++
    " should be represented by either string or table with exactly one key")

/-- `EnumAccess::variant_deserializer` from `src/value/de.rs`: look the
supposed variant name up in the enum's known variant list. -/
def variant_deserializer (name : String) (variants : List String)
    (supposed : String) : Except Error String :=
  match variants.find? (fun s => s = supposed) with
  | some s => .ok s
  | none => .error (no_constructor_error name supposed)

/-- `EnumAccess::table_deserializer` from `src/value/de.rs`: a map decodes a
variant name only when it has exactly one entry, whose key is then looked
up. -/
def table_deserializer (name : String) (variants : List String)
    (table : List (String × Value)) : Except Error String :=
  match table with
  | [(k, _)] => variant_deserializer name variants k
  | _ => .error (structural_error name)

/-- `EnumAccess::variant_seed` from `src/value/de.rs` (the variant-name
resolution, after which `VariantAccess::unit_variant` always succeeds): a
bare string or a single-entry map selects the variant; anything else is the
structural error. -/
def variant_seed (name : String) (variants : List String) :
    Value → Except Error String
  | .String s => variant_deserializer name variants s
  | .Map t => table_deserializer name variants t
  | _ => .error (structural_error name)

/-- Whether a `Value` is one of the container variants (Map/Array). -/
def Value.isContainer : Value → Bool
  | .Map _ => true
  | .Array _ => true
  | _ => false

theorem assocFind_append (l₁ l₂ : List (String × Value)) (k : String) :
    assocFind (l₁ ++ l₂) k =
      match assocFind l₁ k with
      | some v => some v
      | none => assocFind l₂ k := by
  induction l₁ with
  | nil => simp [assocFind]
  | cons p rest ih =>
    obtain ⟨k', v'⟩ := p
    by_cases h : k' = k <;> simp [assocFind, h, ih]

theorem assocFind_assocUpdate_self (m : List (String × Value)) (k : String)
    (v nv : Value) (h : assocFind m k = some v) :
    assocFind (assocUpdate m k nv) k = some nv := by
  induction m with
  | nil => simp [assocFind] at h
  | cons p rest ih =>
    obtain ⟨k', v'⟩ := p
    by_cases hk : k' = k
    · simp [assocFind, assocUpdate, hk]
    · simp [assocFind, assocUpdate, hk] at h ⊢
      exact ih h

theorem assocFind_assocUpdate_ne (m : List (String × Value)) (k k' : String)
    (nv : Value) (h : k' ≠ k) :
    assocFind (assocUpdate m k nv) k' = assocFind m k' := by
  induction m with
  | nil => simp [assocUpdate]
  | cons p rest ih =>
    obtain ⟨k₀, v₀⟩ := p
    by_cases hk : k₀ = k
    · subst hk
      have hne : k₀ ≠ k' := fun hh => h hh.symm
      simp [assocFind, assocUpdate, hne]
    · simp [assocFind, assocUpdate, hk]
      by_cases hk' : k₀ = k' <;> simp [hk', ih]

theorem assocFind_eq_none_of_not_mem (m : List (String × Value)) (k : String)
    (h : k ∉ m.map Prod.fst) : assocFind m k = none := by
  induction m with
  | nil => rfl
  | cons p rest ih =>
    obtain ⟨k', v'⟩ := p
    rw [List.map_cons, List.mem_cons] at h
    push_neg at h
    have h1 : ¬k' = k := fun hh => h.1 hh.symm
    simp [assocFind, h1, ih h.2]

/-- C7: merging a `Nil` source into a target of any variant returns Ok and
leaves the target unchanged — `Nil` never erases a concrete value. -/
theorem merge_nil_source_noop (t : Value) : Value.merge t .Nil = (t, none) := by
  cases t <;> rfl

/-- C8: path-parse correctness on the spec's four reference inputs:
`"/a[0]/b/c[1]"`, the bare root `"/"`, the empty string (a parse error) and
`"/a"`. -/
theorem parse_to_path_examples :
    parse_to_path "/a[0]/b/c[1]" =
        .ok [.Identifier "a", .Index 0, .Identifier "b", .Identifier "c",
          .Index 1] ∧
      parse_to_path "/" = .ok [] ∧
      parse_to_path "" = .error (.PathParse "") ∧
      parse_to_path "/a" = .ok [.Identifier "a"] :=
  ⟨rfl, rfl, rfl, rfl⟩

/-- C10: `get` with the root path `"/"` (the empty node sequence) returns
`Ok(None)` on every tree and for every requested coercion: the empty
`scan(..).last()` pipeline yields `None` before any coercion happens. -/
theorem get_root_path_is_none {α : Type} (coe : Value → Except Error α)
    (t : Value) :
    parse_to_path "/" = .ok ([] : List PathNode) ∧
      Value.get coe t [] = some (.ok none) :=
  ⟨rfl, rfl⟩

/-- C3: the code at the failing input — `to_value` on a bare primitive (the
crate's own `simple_to_value_test` expects `Ok`): `serialize_primitive` hits
the empty key stack and fails with the Serde error
"key is not found for value …" for booleans, integers and strings alike. -/
theorem to_value_bare_primitive_fails :
    to_value_primitive (.Boolean true) "true" =
        some (.error (.Serde "key is not found for value true")) ∧
      to_value_primitive (.Integer 1000) "1000" =
        some (.error (.Serde "key is not found for value 1000")) ∧
      to_value_primitive (.String "i am string") "i am string" =
        some (.error (.Serde "key is not found for value i am string")) :=
  ⟨rfl, rfl, rfl⟩

/-- C1: the code at the failing input — a path whose second segment fails to
resolve.  `scan` stops at the failing segment and `last()` hands the last
partially resolved node (here the value at `"a"`) to the coercion, so
`get::<bool>` on `{"a": true}` at `"/a/c"` returns `Ok(Some(true))` instead
of the claimed `Ok(None)`. -/
theorem get_partial_walk_returns_last_resolved :
    Value.get tryIntoBool (.Map [("a", .Boolean true)])
        [.Identifier "a", .Identifier "c"] = some (.ok (some true)) ∧
      resolvePath (.Map [("a", .Boolean true)])
        [.Identifier "a", .Identifier "c"] = some (some (.Boolean true)) :=
  ⟨rfl, rfl⟩

/-- C5, counterexample: an Array-target merge that fails on the second
element has already committed the merge of the first element when it
returns the error — the target is not left as it was. -/
theorem merge_error_partial_mutation :
    Value.merge (.Array [.Boolean true, .Boolean true])
        (.Array [.Boolean false, .Float ⟨0x3FF0000000000000⟩]) =
      (.Array [.Boolean false, .Boolean true],
        some (.Type (.Float ⟨0x3FF0000000000000⟩) "a bool")) ∧
      Value.Array [.Boolean false, .Boolean true] ≠
        .Array [.Boolean true, .Boolean true] := by
  refine ⟨rfl, ?_⟩
  simp

/-- C5, amended: on a scalar or Nil target (the non-container variants) a
failing `merge` leaves the target exactly as it was; only the Map/Array
arms can commit sub-merges before reporting an error. -/
theorem merge_error_scalar_target_unchanged (t s : Value)
    (hc : t.isContainer = false) (he : (Value.merge t s).2.isSome) :
    (Value.merge t s).1 = t := by
  cases t <;> cases s <;> simp_all [Value.merge, Value.isContainer]

theorem merge_error_scalar_target_unchanged_witness :
    Value.isContainer (.Boolean true) = false ∧
      (Value.merge (.Boolean true) (.Float ⟨0x3FF0000000000000⟩)).2.isSome ∧
      (Value.merge (.Boolean true) (.Float ⟨0x3FF0000000000000⟩)).1 =
        .Boolean true :=
  ⟨rfl, rfl, merge_error_scalar_target_unchanged _ _ rfl rfl⟩

/-- C2, counterexample: `set` is not total — on the tree `Nil` with path
`"/a[2]"` the vivified array `[Nil]` has length 1, `get_mut(2)` misses and
`Vec::insert(2, …)` panics (insertion index 2 > len 1), so the walk panics
instead of returning Ok. -/
theorem set_panics_on_gap_index :
    setPath .Nil [.Identifier "a", .Index 2] (.Boolean true) = none ∧
      setPath (.Array [.Nil, .Nil, .Nil]) [.Index (-5)] (.Boolean true) =
        none :=
  ⟨rfl, rfl⟩

theorem getD_set_self (l : List Value) (i : Nat) (x : Value)
    (h : i < l.length) : (l.set i x).getD i Value.Nil = x := by
  induction l generalizing i with
  | nil => simp at h
  | cons a as ih =>
    cases i with
    | zero => rfl
    | succ j => simpa using ih j (Nat.lt_of_succ_lt_succ h)

theorem setPath_isSome_eq_setSafe (p : List PathNode) :
    ∀ (t v : Value), (setPath t p v).isSome = setSafe t p := by
  induction p with
  | nil => intro t v; rfl
  | cons n rest ih =>
    intro t v
    cases n with
    | Identifier id =>
      have core : ∀ m : List (String × Value),
          (setPath (Value.Map m) (.Identifier id :: rest) v).isSome =
            setSafe (Value.Map m) (.Identifier id :: rest) := by
        intro m
        simp only [setPath, setSafe]
        cases assocFind m id with
        | some child =>
          dsimp only
          rw [← ih child v]
          cases setPath child rest v with
          | none => rfl
          | some pr => obtain ⟨old, child'⟩ := pr; rfl
        | none =>
          dsimp only
          rw [← ih Value.Nil v]
          cases setPath Value.Nil rest v with
          | none => rfl
          | some pr => obtain ⟨old, child'⟩ := pr; rfl
      cases t with
      | Map m => exact core m
      | Nil => exact core []
      | Integer a => exact core []
      | Float a => exact core []
      | Boolean a => exact core []
      | String a => exact core []
      | Array a => exact core []
    | Index i =>
      have core : ∀ arr : List Value,
          (setPath (Value.Array arr) (.Index i :: rest) v).isSome =
            setSafe (Value.Array arr) (.Index i :: rest) := by
        intro arr
        simp only [setPath, setSafe]
        cases Value.get_array_slot arr i with
        | none => rfl
        | some pr =>
          obtain ⟨idx, arr'⟩ := pr
          dsimp only
          rw [← ih (arr'.getD idx Value.Nil) v]
          cases setPath (arr'.getD idx Value.Nil) rest v with
          | none => rfl
          | some pr2 => obtain ⟨old, child'⟩ := pr2; rfl
      cases t with
      | Array a => exact core a
      | Nil => exact core [Value.Nil]
      | Integer a => exact core [Value.Nil]
      | Float a => exact core [Value.Nil]
      | Boolean a => exact core [Value.Nil]
      | String a => exact core [Value.Nil]
      | Map a => exact core [Value.Nil]

/-- C2, amended: `set` with an already-parsed path returns Ok exactly when,
at every Index segment of the (auto-vivifying) walk, the resolved position
is within the array indexed at that moment or equal to its length (an
append); an index strictly beyond the length, or a negative index whose
magnitude exceeds the length, makes `set` panic rather than grow the
array. -/
theorem set_ok_iff_walk_indices_in_range (t : Value) (p : List PathNode)
    (v : Value) :
    (∃ old t', setPath t p v = some (old, t')) ↔ setSafe t p = true := by
  rw [← setPath_isSome_eq_setSafe p t v]
  constructor
  · rintro ⟨old, t', h⟩
    simp [h]
  · intro h
    obtain ⟨pr, hpr⟩ := Option.isSome_iff_exists.mp h
    obtain ⟨old, t'⟩ := pr
    exact ⟨old, t', hpr⟩

theorem setPath_index_array (arr : List Value) (i : Int)
    (rest : List PathNode) (v : Value) :
    setPath (.Array arr) (.Index i :: rest) v =
      match Value.get_array_slot arr i with
      | none => none
      | some (idx, arr') =>
        match setPath (arr'.getD idx .Nil) rest v with
        | none => none
        | some (old, child') => some (old, .Array (arr'.set idx child')) :=
  rfl

theorem setPath_of_strictResolve (p : List PathNode) :
    ∀ (t v w : Value), strictResolve t p = some w →
      ∃ t', setPath t p v = some (w, t') ∧ strictResolve t' p = some v := by
  induction p with
  | nil =>
    intro t v w h
    simp only [strictResolve, Option.some.injEq] at h
    subst h
    exact ⟨v, rfl, rfl⟩
  | cons n rest ih =>
    intro t v w h
    cases n with
    | Identifier id =>
      cases t with
      | Map m =>
        cases hf : assocFind m id with
        | none => simp [strictResolve, stepNode, hf] at h
        | some c =>
          simp only [strictResolve, stepNode, hf] at h
          obtain ⟨t'', hset, hres⟩ := ih c v w h
          refine ⟨.Map (assocUpdate m id t''), ?_, ?_⟩
          · simp [setPath, hf, hset]
          · simp [strictResolve, stepNode,
              assocFind_assocUpdate_self m id c t'' hf, hres]
      | Nil => simp [strictResolve, stepNode] at h
      | Integer a => simp [strictResolve, stepNode] at h
      | Float a => simp [strictResolve, stepNode] at h
      | Boolean a => simp [strictResolve, stepNode] at h
      | String a => simp [strictResolve, stepNode] at h
      | Array a => simp [strictResolve, stepNode] at h
    | Index i =>
      cases t with
      | Array arr =>
        cases hmi : Value.map_index i arr.length with
        | none => simp [strictResolve, stepNode, hmi] at h
        | some idx =>
          by_cases hlt : idx < arr.length
          · simp only [strictResolve, stepNode, hmi, hlt, if_true] at h
            obtain ⟨t'', hset, hres⟩ := ih (arr.getD idx .Nil) v w h
            refine ⟨.Array (arr.set idx t''), ?_, ?_⟩
            · have hgas : Value.get_array_slot arr i = some (idx, arr) := by
                simp [Value.get_array_slot, hmi, hlt]
              rw [setPath_index_array, hgas]
              dsimp only
              rw [hset]
            · simp [strictResolve, stepNode, List.length_set, hmi, hlt,
                getD_set_self arr idx t'' hlt, hres]
          · simp [strictResolve, stepNode, hmi, hlt] at h
      | Nil => simp [strictResolve, stepNode] at h
      | Integer a => simp [strictResolve, stepNode] at h
      | Float a => simp [strictResolve, stepNode] at h
      | Boolean a => simp [strictResolve, stepNode] at h
      | String a => simp [strictResolve, stepNode] at h
      | Map a => simp [strictResolve, stepNode] at h

theorem scanLast_of_strictResolve (rest : List PathNode) :
    ∀ (t : Value) (n : PathNode) (w : Value) (acc : Option Value),
      strictResolve t (n :: rest) = some w →
      scanLast t (n :: rest) acc = some (some w) := by
  induction rest with
  | nil =>
    intro t n w acc h
    cases hst : stepNode t n with
    | none => simp [strictResolve, hst] at h
    | some o =>
      cases o with
      | none => simp [strictResolve, hst] at h
      | some c =>
        simp only [strictResolve, hst, Option.some.injEq] at h
        subst h
        simp [scanLast, hst]
  | cons n' rest' ih =>
    intro t n w acc h
    cases hst : stepNode t n with
    | none => simp [strictResolve, hst] at h
    | some o =>
      cases o with
      | none => simp [strictResolve, hst] at h
      | some c =>
        simp only [strictResolve, hst] at h
        rw [scanLast]
        simp only [hst]
        exact ih c n' w (some c) h

theorem get_of_resolvePath {α : Type} (coe : Value → Except Error α)
    (t : Value) (p : List PathNode) (r : Value)
    (h : resolvePath t p = some (some r)) :
    Value.get coe t p = some ((coe r).map some) := by
  simp only [Value.get, h]
  cases coe r <;> rfl

theorem mergeMapList_assocFind (sm : List (String × Value)) :
    ∀ (tm rm : List (String × Value)),
      (sm.map Prod.fst).Nodup → mergeMapList tm sm = (rm, none) →
      ∀ k, assocFind rm k =
        match assocFind sm k with
        | none => assocFind tm k
        | some sv =>
          match assocFind tm k with
          | none => some sv
          | some tv => some (Value.merge tv sv).1 := by
  induction sm with
  | nil =>
    intro tm rm _ h k
    simp only [mergeMapList, Prod.mk.injEq] at h
    rw [← h.1]
    rfl
  | cons e rest ih =>
    obtain ⟨k₀, sv₀⟩ := e
    intro tm rm hnd h k
    rw [List.map_cons, List.nodup_cons] at hnd
    obtain ⟨hk₀, hnd'⟩ := hnd
    cases hf : assocFind tm k₀ with
    | some j =>
      simp only [mergeMapList, hf] at h
      cases hr : (Value.merge j sv₀).2 with
      | some e => simp only [hr, Prod.mk.injEq] at h; exact absurd h.2 (by simp)
      | none =>
        rw [hr] at h
        have IH := ih (assocUpdate tm k₀ (Value.merge j sv₀).1) rm hnd' h
        by_cases hkk : k₀ = k
        · subst hkk
          have hrest : assocFind rest k₀ = none :=
            assocFind_eq_none_of_not_mem rest k₀ hk₀
          rw [IH k₀, hrest]
          simp [assocFind, hf,
            assocFind_assocUpdate_self tm k₀ j (Value.merge j sv₀).1 hf]
        · rw [IH k,
            assocFind_assocUpdate_ne tm k₀ k (Value.merge j sv₀).1
              (fun hh => hkk hh.symm)]
          simp [assocFind, hkk]
    | none =>
      simp only [mergeMapList, hf] at h
      have IH := ih (tm ++ [(k₀, sv₀)]) rm hnd' h
      by_cases hkk : k₀ = k
      · subst hkk
        have hrest : assocFind rest k₀ = none :=
          assocFind_eq_none_of_not_mem rest k₀ hk₀
        have happ : assocFind (tm ++ [(k₀, sv₀)]) k₀ = some sv₀ := by
          rw [assocFind_append, hf]
          simp [assocFind]
        rw [IH k₀, hrest, happ]
        simp [assocFind, hf]
      · have happ : assocFind (tm ++ [(k₀, sv₀)]) k = assocFind tm k := by
          rw [assocFind_append]
          cases hfk : assocFind tm k <;> simp [assocFind, hkk]
        rw [IH k, happ]
        simp [assocFind, hkk]

/-- C6: a successful Map-into-Map merge is key-wise: a key only in the
target keeps its value, a key only in the source is inserted with the
source's value, and a key present in both carries the recursive merge of
the two entries. -/
theorem merge_map_into_map_keywise (tm sm rm : List (String × Value))
    (hnd : (sm.map Prod.fst).Nodup)
    (h : Value.merge (.Map tm) (.Map sm) = (.Map rm, none)) :
    ∀ k, assocFind rm k =
      match assocFind sm k with
      | none => assocFind tm k
      | some sv =>
        match assocFind tm k with
        | none => some sv
        | some tv => some (Value.merge tv sv).1 := by
  have h' : mergeMapList tm sm = (rm, none) := by
    rcases hml : mergeMapList tm sm with ⟨r1, r2⟩
    simp only [Value.merge, hml, Prod.mk.injEq, Value.Map.injEq] at h
    rw [h.1, h.2]
  exact mergeMapList_assocFind sm tm rm hnd h'

theorem merge_map_into_map_keywise_witness :
    (([("bool", Value.Boolean false), ("i32", Value.Integer 1000)].map
        Prod.fst).Nodup) ∧
      Value.merge (.Map [("bool", .Boolean true), ("str", .String "x")])
          (.Map [("bool", .Boolean false), ("i32", .Integer 1000)]) =
        (.Map [("bool", .Boolean false), ("str", .String "x"),
          ("i32", .Integer 1000)], none) ∧
      assocFind [("bool", Value.Boolean false), ("str", Value.String "x"),
          ("i32", Value.Integer 1000)] "str" =
        match assocFind [("bool", Value.Boolean false),
            ("i32", Value.Integer 1000)] "str" with
        | none => assocFind [("bool", Value.Boolean true),
            ("str", Value.String "x")] "str"
        | some sv =>
          match assocFind [("bool", Value.Boolean true),
              ("str", Value.String "x")] "str" with
          | none => some sv
          | some tv => some (Value.merge tv sv).1 :=
  ⟨by decide, rfl,
    merge_map_into_map_keywise
      [("bool", .Boolean true), ("str", .String "x")]
      [("bool", .Boolean false), ("i32", .Integer 1000)]
      [("bool", .Boolean false), ("str", .String "x"),
        ("i32", .Integer 1000)]
      (by decide) rfl "str"⟩

/-- C9: decoding an enum from a Map value: a single-entry map whose key is a
known variant resolves to that variant (after which the unit-variant access
unconditionally succeeds); a map with zero or two-or-more entries fails
with the structural error; a single-entry map whose key is unknown fails
with the no-such-constructor error. -/
theorem enum_decode_map_structural (name : String) (variants : List String)
    (k : String) (payload : Value) (table : List (String × Value)) :
    (k ∈ variants →
      variant_seed name variants (.Map [(k, payload)]) = .ok k) ∧
    (table.length ≠ 1 →
      variant_seed name variants (.Map table) =
        .error (structural_error name)) ∧
    (k ∉ variants →
      variant_seed name variants (.Map [(k, payload)]) =
        .error (no_constructor_error name k)) := by
  refine ⟨?_, ?_, ?_⟩
  · intro hk
    have hfind : variants.find? (fun s => s = k) = some k := by
      have hsome : (variants.find? (fun s => s = k)).isSome := by
        rw [List.find?_isSome]
        exact ⟨k, hk, by simp⟩
      obtain ⟨a, ha⟩ := Option.isSome_iff_exists.mp hsome
      have := List.find?_some ha
      simp at this
      rw [ha, this]
    simp [variant_seed, table_deserializer, variant_deserializer, hfind]
  · intro hlen
    cases table with
    | nil => rfl
    | cons e rest =>
      cases rest with
      | nil => obtain ⟨a, b⟩ := e; simp at hlen
      | cons e' rest' => obtain ⟨a, b⟩ := e; obtain ⟨a', b'⟩ := e'; rfl
  · intro hk
    have hfind : variants.find? (fun s => s = k) = none := by
      rw [List.find?_eq_none]
      intro x hx
      simp
      rintro rfl
      exact hk hx
    simp [variant_seed, table_deserializer, variant_deserializer, hfind]

theorem enum_decode_map_structural_witness :
    ("A" ∈ ["A", "B"] ∧
      variant_seed "E" ["A", "B"] (.Map [("A", .Nil)]) = .ok "A") ∧
    (([] : List (String × Value)).length ≠ 1 ∧
      variant_seed "E" ["A", "B"] (.Map []) =
        .error (structural_error "E")) ∧
    ("C" ∉ ["A", "B"] ∧
      variant_seed "E" ["A", "B"] (.Map [("C", .Nil)]) =
        .error (no_constructor_error "E" "C")) :=
  ⟨⟨by decide,
      (enum_decode_map_structural "E" ["A", "B"] "A" .Nil []).1 (by decide)⟩,
    ⟨by decide,
      (enum_decode_map_structural "E" ["A", "B"] "A" .Nil []).2.1
        (by decide)⟩,
    ⟨by decide,
      (enum_decode_map_structural "E" ["A", "B"] "C" .Nil []).2.2
        (by decide)⟩⟩

theorem strictResolve_nil_getD (rest : List PathNode) :
    (strictResolve Value.Nil rest).getD Value.Nil = Value.Nil := by
  cases rest with
  | nil => rfl
  | cons n rest' => cases n <;> rfl

theorem getD_append_length (arr : List Value) (x : Value) :
    (arr ++ [x]).getD arr.length Value.Nil = x := by
  induction arr with
  | nil => rfl
  | cons a as _ => simp


theorem get_array_slot_spec (arr : List Value) (i : Int) (idx : Nat)
    (arr' : List Value) (h : Value.get_array_slot arr i = some (idx, arr')) :
    Value.map_index i arr.length = some idx ∧
      ((idx < arr.length ∧ arr' = arr) ∨
        (idx = arr.length ∧ arr' = arr ++ [Value.Nil] ∧ 0 ≤ i)) := by
  unfold Value.get_array_slot at h
  cases hmi : Value.map_index i arr.length with
  | none => rw [hmi] at h; simp at h
  | some j =>
    rw [hmi] at h
    dsimp only at h
    by_cases hlt : j < arr.length
    · rw [if_pos hlt] at h
      simp only [Option.some.injEq, Prod.mk.injEq] at h
      obtain ⟨rfl, rfl⟩ := h
      exact ⟨rfl, Or.inl ⟨hlt, rfl⟩⟩
    · rw [if_neg hlt] at h
      by_cases hje : j = arr.length
      · rw [if_pos hje] at h
        simp only [Option.some.injEq, Prod.mk.injEq] at h
        obtain ⟨rfl, rfl⟩ := h
        have hge : 0 ≤ i := by
          by_contra hneg
          push_neg at hneg
          have hmi' := hmi
          unfold Value.map_index at hmi'
          rw [if_neg (by omega : ¬ (0 : Int) ≤ i)] at hmi'
          have hpos : 0 < i.natAbs := Int.natAbs_pos.mpr (by omega)
          by_cases hab : i.natAbs ≤ arr.length
          · rw [if_pos hab] at hmi'
            simp only [Option.some.injEq] at hmi'
            omega
          · rw [if_neg hab] at hmi'
            simp at hmi'
        exact ⟨rfl, Or.inr ⟨hje, rfl, hge⟩⟩
      · rw [if_neg hje] at h
        simp at h

theorem strictResolve_array_nil_getD (i : Int) (rest : List PathNode) :
    (strictResolve (Value.Array [Value.Nil]) (.Index i :: rest)).getD
      Value.Nil = Value.Nil := by
  simp only [strictResolve, stepNode, List.length_singleton]
  cases hmi : Value.map_index i 1 with
  | none => rfl
  | some idx =>
    by_cases hlt : idx < 1
    · have h0 : idx = 0 := by omega
      subst h0
      simp only [hlt, if_true]
      exact strictResolve_nil_getD rest
    · simp [hlt]

theorem setPath_some_spec (p : List PathNode) :
    ∀ (t v old t₁ : Value), setPath t p v = some (old, t₁) →
      old = (strictResolve t p).getD Value.Nil ∧
        strictResolve t₁ p = some v := by
  induction p with
  | nil =>
    intro t v old t₁ h
    simp only [setPath, Option.some.injEq, Prod.mk.injEq] at h
    obtain ⟨rfl, rfl⟩ := h
    exact ⟨rfl, rfl⟩
  | cons n rest ih =>
    intro t v old t₁ h
    cases n with
    | Identifier id =>
      have core : ∀ (m : List (String × Value)) (old t₁ : Value),
          setPath (Value.Map m) (.Identifier id :: rest) v = some (old, t₁) →
          old = (strictResolve (Value.Map m)
              (.Identifier id :: rest)).getD Value.Nil ∧
            strictResolve t₁ (.Identifier id :: rest) = some v := by
        intro m old t₁ h
        simp only [setPath] at h
        cases hf : assocFind m id with
        | some child =>
          rw [hf] at h
          dsimp only at h
          cases hs : setPath child rest v with
          | none => rw [hs] at h; simp at h
          | some pr =>
            rw [hs] at h
            obtain ⟨o, c'⟩ := pr
            simp only [Option.some.injEq, Prod.mk.injEq] at h
            obtain ⟨rfl, rfl⟩ := h
            obtain ⟨ho, hres⟩ := ih child v o c' hs
            constructor
            · rw [ho]
              have heq : strictResolve (Value.Map m)
                  (.Identifier id :: rest) = strictResolve child rest := by
                simp [strictResolve, stepNode, hf]
              rw [heq]
            · simp [strictResolve, stepNode,
                assocFind_assocUpdate_self m id child c' hf, hres]
        | none =>
          rw [hf] at h
          dsimp only at h
          cases hs : setPath Value.Nil rest v with
          | none => rw [hs] at h; simp at h
          | some pr =>
            rw [hs] at h
            obtain ⟨o, c'⟩ := pr
            simp only [Option.some.injEq, Prod.mk.injEq] at h
            obtain ⟨rfl, rfl⟩ := h
            obtain ⟨ho, hres⟩ := ih Value.Nil v o c' hs
            constructor
            · rw [ho, strictResolve_nil_getD]
              simp [strictResolve, stepNode, hf]
            · have happ : assocFind (m ++ [(id, c')]) id = some c' := by
                rw [assocFind_append, hf]
                simp [assocFind]
              simp [strictResolve, stepNode, happ, hres]
      cases t with
      | Map m => exact core m old t₁ h
      | Nil => exact core [] old t₁ h
      | Integer a => exact core [] old t₁ h
      | Float a => exact core [] old t₁ h
      | Boolean a => exact core [] old t₁ h
      | String a => exact core [] old t₁ h
      | Array a => exact core [] old t₁ h
    | Index i =>
      have core : ∀ (arr : List Value) (old t₁ : Value),
          setPath (Value.Array arr) (.Index i :: rest) v = some (old, t₁) →
          old = (strictResolve (Value.Array arr)
              (.Index i :: rest)).getD Value.Nil ∧
            strictResolve t₁ (.Index i :: rest) = some v := by
        intro arr old t₁ h
        rw [setPath_index_array] at h
        cases hg : Value.get_array_slot arr i with
        | none => rw [hg] at h; simp at h
        | some pr =>
          rw [hg] at h
          obtain ⟨idx, arr'⟩ := pr
          dsimp only at h
          cases hs : setPath (arr'.getD idx Value.Nil) rest v with
          | none => rw [hs] at h; simp at h
          | some pr2 =>
            rw [hs] at h
            obtain ⟨o, c'⟩ := pr2
            simp only [Option.some.injEq, Prod.mk.injEq] at h
            obtain ⟨rfl, rfl⟩ := h
            obtain ⟨hmi, hcase⟩ := get_array_slot_spec arr i idx arr' hg
            obtain ⟨ho, hres⟩ := ih (arr'.getD idx Value.Nil) v o c' hs
            cases hcase with
            | inl hc =>
              obtain ⟨hlt, rfl⟩ := hc
              constructor
              · rw [ho]
                have heq : strictResolve (Value.Array arr')
                    (.Index i :: rest) =
                      strictResolve (arr'.getD idx Value.Nil) rest := by
                  simp [strictResolve, stepNode, hmi, hlt]
                rw [heq]
              · simp [strictResolve, stepNode, List.length_set, hmi, hlt,
                  getD_set_self arr' idx c' hlt, hres]
            | inr hc =>
              obtain ⟨hidx, rfl, hge⟩ := hc
              have hfresh : (arr ++ [Value.Nil]).getD idx Value.Nil =
                  Value.Nil := by
                rw [hidx]
                exact getD_append_length arr Value.Nil
              rw [hfresh] at ho
              constructor
              · rw [ho, strictResolve_nil_getD]
                have hnlt : ¬ idx < arr.length := by omega
                simp [strictResolve, stepNode, hmi, hnlt]
              · have hlen : ((arr ++ [Value.Nil]).set idx c').length =
                    arr.length + 1 := by
                  simp [List.length_set]
                have hmi2 := hmi
                rw [Value.map_index, if_pos hge] at hmi2
                have hmi' : Value.map_index i (arr.length + 1) = some idx := by
                  rw [Value.map_index, if_pos hge]
                  exact hmi2
                have hlt' : idx < arr.length + 1 := by omega
                have hget : ((arr ++ [Value.Nil]).set idx c').getD idx
                    Value.Nil = c' :=
                  getD_set_self _ idx c' (by simp [hidx])
                simp [strictResolve, stepNode, hlen, hmi', hlt', hget, hres]
      cases t with
      | Array arr => exact core arr old t₁ h
      | Nil =>
        have hc := core [Value.Nil] old t₁ h
        exact ⟨by rw [hc.1, strictResolve_array_nil_getD]; rfl, hc.2⟩
      | Integer a =>
        have hc := core [Value.Nil] old t₁ h
        exact ⟨by rw [hc.1, strictResolve_array_nil_getD]; rfl, hc.2⟩
      | Float a =>
        have hc := core [Value.Nil] old t₁ h
        exact ⟨by rw [hc.1, strictResolve_array_nil_getD]; rfl, hc.2⟩
      | Boolean a =>
        have hc := core [Value.Nil] old t₁ h
        exact ⟨by rw [hc.1, strictResolve_array_nil_getD]; rfl, hc.2⟩
      | String a =>
        have hc := core [Value.Nil] old t₁ h
        exact ⟨by rw [hc.1, strictResolve_array_nil_getD]; rfl, hc.2⟩
      | Map a =>
        have hc := core [Value.Nil] old t₁ h
        exact ⟨by rw [hc.1, strictResolve_array_nil_getD]; rfl, hc.2⟩

/-- C4: whenever `set` succeeds on a non-root parsed path (auto-vivified or
not), the returned value is the one previously occupying the target slot —
the strictly resolved prior occupant when the path already existed, `Nil`
when the slot was freshly created by the walk; afterwards `get` (for any
requested coercion) returns `Ok(Some(coerce(v₁)))`, a second `set` returns
`v₁` and a final `get` sees `v₂`. -/
theorem set_returns_old_then_get_roundtrip (t : Value) (p : List PathNode)
    (v₁ v₂ old t₁ : Value) (h : setPath t p v₁ = some (old, t₁))
    (hp : p ≠ []) :
    old = (strictResolve t p).getD Value.Nil ∧
    resolvePath t₁ p = some (some v₁) ∧
    (∀ {α : Type} (coe : Value → Except Error α),
      Value.get coe t₁ p = some ((coe v₁).map some)) ∧
    ∃ t₂, setPath t₁ p v₂ = some (v₁, t₂) ∧
      resolvePath t₂ p = some (some v₂) ∧
      (∀ {α : Type} (coe : Value → Except Error α),
        Value.get coe t₂ p = some ((coe v₂).map some)) := by
  obtain ⟨ho, hres₁⟩ := setPath_some_spec p t v₁ old t₁ h
  obtain ⟨t₂, hset₂, hres₂⟩ := setPath_of_strictResolve p t₁ v₂ v₁ hres₁
  obtain ⟨n, rest, rfl⟩ : ∃ n rest, p = n :: rest := by
    cases p with
    | nil => exact absurd rfl hp
    | cons n rest => exact ⟨n, rest, rfl⟩
  have hr₁ : resolvePath t₁ (n :: rest) = some (some v₁) :=
    scanLast_of_strictResolve rest t₁ n v₁ none hres₁
  have hr₂ : resolvePath t₂ (n :: rest) = some (some v₂) :=
    scanLast_of_strictResolve rest t₂ n v₂ none hres₂
  exact ⟨ho, hr₁, fun coe => get_of_resolvePath coe t₁ _ v₁ hr₁, t₂, hset₂,
    hr₂, fun coe => get_of_resolvePath coe t₂ _ v₂ hr₂⟩

theorem set_returns_old_then_get_roundtrip_witness :
    setPath .Nil [.Identifier "x", .Identifier "y"] (.Integer 5) =
      some (.Nil, .Map [("x", .Map [("y", .Integer 5)])]) ∧
    ((Value.Nil : Value) =
      (strictResolve .Nil [.Identifier "x", .Identifier "y"]).getD
        Value.Nil ∧
    resolvePath (.Map [("x", .Map [("y", .Integer 5)])])
        [.Identifier "x", .Identifier "y"] = some (some (.Integer 5)) ∧
    (∀ {α : Type} (coe : Value → Except Error α),
      Value.get coe (.Map [("x", .Map [("y", .Integer 5)])])
          [.Identifier "x", .Identifier "y"] =
        some ((coe (.Integer 5)).map some)) ∧
    ∃ t₂, setPath (.Map [("x", .Map [("y", .Integer 5)])])
          [.Identifier "x", .Identifier "y"] (.Integer 7) =
        some (.Integer 5, t₂) ∧
      resolvePath t₂ [.Identifier "x", .Identifier "y"] =
        some (some (.Integer 7)) ∧
      (∀ {α : Type} (coe : Value → Except Error α),
        Value.get coe t₂ [.Identifier "x", .Identifier "y"] =
          some ((coe (.Integer 7)).map some))) :=
  ⟨rfl, set_returns_old_then_get_roundtrip .Nil
    [.Identifier "x", .Identifier "y"] (.Integer 5) (.Integer 7) .Nil
    (.Map [("x", .Map [("y", .Integer 5)])]) rfl (by simp)⟩
